import Mathlib

/-!
Verification of the gitfast scrape pipeline (Next.js / TypeScript sources in
`src/lib`).  JavaScript strings are modelled as lists of Unicode code points
(`List Nat`); every definition below is a direct translation of the
corresponding function in `src/lib/normalize.ts`, `src/lib/github.ts` or the
cache half of `src/lib/csv.ts`.
-/

namespace Gitfast

/-- A JavaScript string, as its sequence of Unicode code points. -/
abbrev JStr := List Nat

/-- Code points of a Lean string literal (used to write concrete inputs). -/
def str (s : String) : JStr := s.data.map Char.toNat

/-- Whitespace code points of the JavaScript regexp class `\s` (which is also
the set trimmed by `String.prototype.trim`): ASCII whitespace plus the
Unicode space characters. -/
def isJsWs (n : Nat) : Bool :=
  n = 32 || n = 9 || n = 10 || n = 11 || n = 12 || n = 13 ||
  n = 0xa0 || n = 0x1680 || (0x2000 ≤ n && n ≤ 0x200a) ||
  n = 0x2028 || n = 0x2029 || n = 0x202f || n = 0x205f ||
  n = 0x3000 || n = 0xfeff

/-- Code points matched by the emoji-stripping regexp
`/[\p{Emoji_Presentation}\p{Extended_Pictographic}]/gu` in
`normaliseLocation` (`src/lib/normalize.ts`), by their Unicode ranges. -/
def isEmojiChar (n : Nat) : Bool :=
  n = 0xa9 || n = 0xae || n = 0x203c || n = 0x2049 || n = 0x2122 ||
  n = 0x2139 || (0x2194 ≤ n && n ≤ 0x2199) || (0x21a9 ≤ n && n ≤ 0x21aa) ||
  (0x231a ≤ n && n ≤ 0x231b) || n = 0x2328 || n = 0x23cf ||
  (0x23e9 ≤ n && n ≤ 0x23f3) || (0x23f8 ≤ n && n ≤ 0x23fa) || n = 0x24c2 ||
  (0x25aa ≤ n && n ≤ 0x25ab) || n = 0x25b6 || n = 0x25c0 ||
  (0x25fb ≤ n && n ≤ 0x25fe) || (0x2600 ≤ n && n ≤ 0x27bf) ||
  (0x2934 ≤ n && n ≤ 0x2935) || (0x2b05 ≤ n && n ≤ 0x2b07) ||
  (0x2b1b ≤ n && n ≤ 0x2b1c) || n = 0x2b50 || n = 0x2b55 ||
  n = 0x3030 || n = 0x303d || n = 0x3297 || n = 0x3299 ||
  (0x1f000 ≤ n && n ≤ 0x1faff)

/-- `String.prototype.toLowerCase` on one code point (ASCII case mapping;
every character appearing in the alias table and the scoring rules is
ASCII). -/
def jsToLower (n : Nat) : Nat := if 65 ≤ n && n ≤ 90 then n + 32 else n

/-- `String.prototype.trim`: drop whitespace from both ends. -/
def jsTrim (l : JStr) : JStr :=
  ((l.dropWhile isJsWs).reverse.dropWhile isJsWs).reverse

/-- `replace(/\s+/g, " ")`: each maximal run of whitespace becomes one
space.  The boolean argument records whether the previous character was
part of a whitespace run. -/
def collapseWsAux : Bool → JStr → JStr
  | _, [] => []
  | prevWs, c :: rest =>
    if isJsWs c then
      if prevWs then collapseWsAux true rest
      else 32 :: collapseWsAux true rest
    else c :: collapseWsAux false rest

/-- `replace(/\s+/g, " ")` on a whole string. -/
def collapseWs (l : JStr) : JStr := collapseWsAux false l

/-- `replace(/[\p{Emoji_Presentation}\p{Extended_Pictographic}]/gu, "")`. -/
def stripEmoji (l : JStr) : JStr := l.filter (fun c => !isEmojiChar c)

/-- `toLowerCase` on a whole string. -/
def toLowerStr (l : JStr) : JStr := l.map jsToLower

/-- `LOCATION_ALIASES` from `src/lib/normalize.ts`: exact full-string
aliases applied after cleanup. -/
def LOCATION_ALIASES : List (JStr × JStr) :=
  [(str "kampala ug", str "kampala, uganda"),
   (str "kampala, ug", str "kampala, uganda"),
   (str "ug", str "uganda")]

/-- The alias lookup at the end of `normaliseLocation`: replace the string
when it is exactly an alias key. -/
def applyAlias (l : JStr) : JStr :=
  match LOCATION_ALIASES.find? (fun p => p.1 == l) with
  | some p => p.2
  | none => l

/-- The cleanup chain of `normaliseLocation`: trim, strip emoji, collapse
whitespace runs, trim, lowercase. -/
def normCore (l : JStr) : JStr :=
  toLowerStr (jsTrim (collapseWs (stripEmoji (jsTrim l))))

/-- `normaliseLocation` (`src/lib/normalize.ts`): `null`/`undefined`/empty
input gives the empty string; otherwise the cleanup chain followed by the
alias table. -/
def normaliseLocation (raw : Option JStr) : JStr :=
  match raw with
  | none => []
  | some r =>
    if r = [] then []
    else applyAlias (normCore r)

/-- `UGANDA_CITIES` from `src/lib/normalize.ts`. -/
def UGANDA_CITIES : List JStr :=
  [str "kampala", str "entebbe", str "jinja", str "mbarara", str "gulu",
   str "mbale", str "mukono", str "wakiso", str "lira", str "kasese",
   str "fort portal", str "arua", str "soroti", str "kabale", str "masaka"]

/-- Lowercase ASCII letter (the regexp class `[a-z]`). -/
def isLowerAlpha (n : Nat) : Bool := 97 ≤ n && n ≤ 122

/-- Regexp word character (the class `\w` underlying `\b`). -/
def isWordChar (n : Nat) : Bool :=
  (97 ≤ n && n ≤ 122) || (65 ≤ n && n ≤ 90) || (48 ≤ n && n ≤ 57) || n = 95

/-- `String.prototype.includes`: `pat` occurs somewhere in the string. -/
def containsSub (pat : JStr) : JStr → Bool
  | [] => pat.isPrefixOf []
  | c :: rest => pat.isPrefixOf (c :: rest) || containsSub pat rest

/-- The trailing context `(?:[^a-z]|$)` of the city regexp. -/
def cityAfterOk : JStr → Bool
  | [] => true
  | c :: _ => !isLowerAlpha c

/-- The city regexp `(?:^|[^a-z])CITY(?:[^a-z]|$)` matching with the city
starting at the head of `l` (the leading context is handled by the
scanner). -/
def cityHere (city l : JStr) : Bool :=
  city.isPrefixOf l && cityAfterOk (l.drop city.length)

/-- Leading context of the city regexp: start of string or a non-letter. -/
def prevNonAlpha : Option Nat → Bool
  | none => true
  | some p => !isLowerAlpha p

/-- Scan for the city regexp; `prev` is the character before the current
position (`none` at the start of the string). -/
def cityScanAux (city : JStr) (prev : Option Nat) : JStr → Bool
  | [] => prevNonAlpha prev && cityHere city []
  | c :: rest =>
    (prevNonAlpha prev && cityHere city (c :: rest)) ||
    cityScanAux city (some c) rest

/-- `re.test(loc)` for the city regexp of `computeConfidenceScore`. -/
def cityScan (city l : JStr) : Bool := cityScanAux city none l

/-- `\s*` : drop leading whitespace. -/
def skipWs (l : JStr) : JStr := l.dropWhile isJsWs

/-- Trailing context `(?:\s*,|\s+|$)` of the abbreviation regexp: the rest
is empty, starts with whitespace (`\s+`), or is whitespace then a comma
(`\s*,`, where a leading whitespace character already satisfies `\s+`). -/
def ugTailOk : JStr → Bool
  | [] => true
  | c :: _ => isJsWs c || c == 44

/-- `ug` followed by the trailing context, starting at the head of `t`. -/
def ugCore (t : JStr) : Bool :=
  match t with
  | c1 :: c2 :: rest => c1 == 117 && c2 == 103 && ugTailOk rest
  | _ => false

/-- One match attempt of `(?:,\s*| )ug(?:\s*,|\s+|$)` anchored at the head
of `l`: a comma followed by any whitespace, or a single literal space,
then `ug` and the trailing context. -/
def ugStep : JStr → Bool
  | [] => false
  | c :: rest => (c == 44 && ugCore (skipWs rest)) || (c == 32 && ugCore rest)

/-- `/(?:,\s*| )ug(?:\s*,|\s+|$)/.test(loc)` : the regexp matches at some
position of the string. -/
def ugAbbrevScan : JStr → Bool
  | [] => false
  | c :: rest => ugStep (c :: rest) || ugAbbrevScan rest

/-- The body `u\.g\.?\b` of the dotted regexp anchored at the head of `t`.
After `u.g` the optional `\.?` and the final `\b` together accept exactly:
end of string, or a following non-word character (when the next character
is a dot, the boundary after `g` already holds, and when `\.?` consumes
the dot the boundary after it requires a following word character, which
the shorter match already covered). -/
def dottedCore (t : JStr) : Bool :=
  match t with
  | c1 :: c2 :: c3 :: rest =>
    c1 == 117 && c2 == 46 && c3 == 103 &&
      (match rest with
       | [] => true
       | d :: _ => !isWordChar d)
  | _ => false

/-- Scan for `/\bu\.g\.?\b/` at positions after the first character;
`prev` is the character immediately before the current position, and the
leading `\b` holds exactly when it is not a word character (the matched
text starts with the word character `u`). -/
def dottedAux (prev : Nat) : JStr → Bool
  | [] => false
  | c :: rest => (!isWordChar prev && dottedCore (c :: rest)) || dottedAux c rest

/-- `/\bu\.g\.?\b/.test(loc)`. -/
def dottedScan : JStr → Bool
  | [] => false
  | c :: rest => dottedCore (c :: rest) || dottedAux c rest

/-- `computeConfidenceScore` (`src/lib/normalize.ts`): priority rules,
first match wins. -/
def computeConfidenceScore (loc : JStr) : Nat :=
  if loc = [] then 0
  else if containsSub (str "uganda") loc then 100
  else if containsSub (str "kampala") loc then 85
  else if UGANDA_CITIES.any (fun city => !(city == str "kampala") && cityScan city loc) then 75
  else if ugAbbrevScan loc then 50
  else if dottedScan loc then 50
  else 0

/-- `isUgandaLocation` (`src/lib/normalize.ts`): score strictly positive. -/
def isUgandaLocation (loc : JStr) : Bool :=
  decide (0 < computeConfidenceScore loc)

/-- `FALSE_POSITIVE_MARKERS` from `src/lib/normalize.ts`. -/
def FALSE_POSITIVE_MARKERS : List JStr :=
  [str "united states", str "united kingdom", str "canada",
   str " us ", str " uk ", str ", us", str ", uk"]

/-- `isLikelyUganda` (`src/lib/normalize.ts`). -/
def isLikelyUganda (loc : JStr) : Bool :=
  if loc = [] then false
  else if computeConfidenceScore loc = 0 then false
  else !FALSE_POSITIVE_MARKERS.any (fun m => containsSub m loc)

/-! ## GitHub API model (`src/lib/github.ts`)

Remote responses are supplied by oracles (one response per attempt or per
page); the retry loop, the pagination loop, the deduplication map and the
detail-resolution filter are translated directly.  Waiting (`sleep`,
back-off timing) has no observable effect on the returned values and is
not modelled. -/

/-- Errors thrown by `ghFetch`: the terminal `GitHub API ${status}` error
and the post-loop `Exhausted retries` error. -/
inductive GhError where
  | apiError (status : Nat)
  | exhaustedRetries
deriving DecidableEq

/-- One HTTP response as `ghFetch` inspects it: `res.ok`, `res.status`,
whether the `x-ratelimit-remaining` header reads `"0"`, and whether the
body text mentions a rate limit. -/
structure GhResponse where
  ok : Bool
  status : Nat
  rateRemainingZero : Bool
  bodyMentionsRateLimit : Bool
deriving DecidableEq

/-- The rate-limit test inside `ghFetch`. -/
def isRateLimited (r : GhResponse) : Bool :=
  (r.status == 403 || r.status == 429) &&
    (r.rateRemainingZero || r.bodyMentionsRateLimit)

/-- The retry loop of `ghFetch`: `for (attempt = 0; attempt <= maxRetries;
attempt++)`.  `remaining` counts the loop iterations still allowed
(initially `maxRetries + 1`); when it reaches zero the loop has exited and
the trailing `throw new Error("Exhausted retries")` runs. -/
def ghFetchAux (responses : Nat → GhResponse) (maxRetries : Nat) :
    Nat → Nat → Except GhError GhResponse
  | _, 0 => .error .exhaustedRetries
  | attempt, remaining + 1 =>
    let r := responses attempt
    if r.ok then .ok r
    else if isRateLimited r && attempt < maxRetries then
      ghFetchAux responses maxRetries (attempt + 1) remaining
    else .error (.apiError r.status)

/-- `ghFetch(url, maxRetries)`: run the retry loop from attempt 0. -/
def ghFetch (responses : Nat → GhResponse) (maxRetries : Nat) :
    Except GhError GhResponse :=
  ghFetchAux responses maxRetries 0 (maxRetries + 1)

/-- A raw search item as extracted from the search response. -/
structure SearchItem where
  login : String
  id : Nat
  avatar_url : String
  html_url : String
deriving DecidableEq

/-- Outcome of fetching and JSON-decoding one search page through
`ghFetch`: the page's items with the server-reported `total_count`, or the
terminal error `ghFetch` threw. -/
inductive PageFetch where
  | ok (items : List SearchItem) (totalCount : Nat)
  | err (e : GhError)

/-- The page loop of `searchUsers`: pages `1..maxPages`, accumulating
items; stop early when a page is empty or the running total reaches the
server-reported count; a thrown fetch error propagates (there is no
`try`/`catch` in `searchUsers`).  `fuel` is the number of pages still
allowed. -/
def searchPagesAux (fetchPage : Nat → PageFetch) :
    Nat → Nat → List SearchItem → Except GhError (List SearchItem)
  | _, 0, acc => .ok acc
  | page, fuel + 1, acc =>
    match fetchPage page with
    | .err e => .error e
    | .ok pageItems totalCount =>
      let items := acc ++ pageItems
      if pageItems.length = 0 || totalCount ≤ items.length then .ok items
      else searchPagesAux fetchPage (page + 1) fuel items

/-- `searchUsers(query, maxPages, perPage)`; the query and page size only
shape the request URL, so the oracle is already specialised to the query
and indexed by page number. -/
def searchUsers (fetchPage : Nat → PageFetch) (maxPages : Nat) :
    Except GhError (List SearchItem) :=
  searchPagesAux fetchPage 1 maxPages []

/-- Query construction in the fan-out loop of `scrapeUsers`:
`location:"loc"` plus optional `repos:>n` / `followers:>n` clauses. -/
def buildQuery (loc : String) (minRepos minFollowers : Nat) : String :=
  let q := "location:" ++ "\"" ++ loc ++ "\""
  let q := if 0 < minRepos then q ++ " repos:>" ++ toString minRepos else q
  if 0 < minFollowers then q ++ " followers:>" ++ toString minFollowers else q

/-- One value of the deduplication map `loginMap`: the first item seen for
a login plus the queries that surfaced it, in order. -/
structure CandidateEntry where
  item : SearchItem
  sourceQueries : List String
deriving DecidableEq

/-- `Map.prototype.get` on an association list: the value stored under the
first matching key, if any. -/
def alookup {β : Type} (k : String) : List (String × β) → Option β
  | [] => none
  | p :: t => if p.1 == k then some p.2 else alookup k t

/-- Processing one search item in the fan-out loop: append the query to an
existing entry's `sourceQueries`, or insert a fresh entry.  The JS `Map`
is modelled as an association list in insertion order. -/
def addItem (m : List (String × CandidateEntry)) (q : String) (it : SearchItem) :
    List (String × CandidateEntry) :=
  match alookup it.login m with
  | some e =>
    m.map (fun p =>
      if p.1 == it.login then (p.1, ⟨e.item, e.sourceQueries ++ [q]⟩) else p)
  | none => m ++ [(it.login, ⟨it, [q]⟩)]

/-- Processing all items returned for one query. -/
def addTermItems (m : List (String × CandidateEntry)) (q : String)
    (items : List SearchItem) : List (String × CandidateEntry) :=
  items.foldl (fun m it => addItem m q it) m

/-- Phase 1 of `scrapeUsers` applied to the per-term search results:
deduplicate logins across terms in caller order. -/
def buildLoginMap (termResults : List (String × List SearchItem)) :
    List (String × CandidateEntry) :=
  termResults.foldl (fun m tr => addTermItems m tr.1 tr.2) []

/-- `totalCandidates`: the running sum `totalCandidates += items.length`
across terms. -/
def totalCandidatesOf (termResults : List (String × List SearchItem)) : Nat :=
  termResults.foldl (fun acc tr => acc + tr.2.length) 0

/-- A decoded `/users/{login}` profile. -/
structure RawProfile where
  login : String
  id : Nat
  avatar_url : String
  html_url : String
  name : Option String
  location : Option JStr
  bio : Option String
  company : Option String
  blog : Option String
  twitter_username : Option String
  email : Option String
  followers : Nat
  following : Nat
  public_repos : Nat
  created_at : String
  updated_at : String
deriving DecidableEq

/-- An output record (`UgandaUser` in `src/lib/types/user`). -/
structure UgandaUser where
  login : String
  id : Nat
  avatar_url : String
  html_url : String
  name : Option String
  location : Option JStr
  bio : Option String
  company : Option String
  blog : Option String
  twitter_username : Option String
  email : Option String
  followers : Nat
  following : Nat
  public_repos : Nat
  created_at : String
  updated_at : String
  confidenceScore : Nat
  isLikelyUganda : Bool
  sourceQueries : List String
deriving DecidableEq

/-- Phase 2 of `scrapeUsers`: resolve each entry through `fetchProfile`
(which catches fetch errors and yields `none`), skip failures, score the
normalised location, and drop candidates below `minScore`.  The worker
pool processes every entry exactly once; it is modelled sequentially
(the concurrency only affects pre-sort output order). -/
def resolveUsers (entries : List CandidateEntry)
    (fetchProfile : String → Option RawProfile) (minScore : Nat) :
    List UgandaUser :=
  entries.filterMap (fun e =>
    match fetchProfile e.item.login with
    | none => none
    | some p =>
      let normLoc := normaliseLocation p.location
      let score := computeConfidenceScore normLoc
      if score < minScore then none
      else some
        { login := p.login, id := p.id, avatar_url := p.avatar_url,
          html_url := p.html_url, name := p.name, location := p.location,
          bio := p.bio, company := p.company, blog := p.blog,
          twitter_username := p.twitter_username, email := p.email,
          followers := p.followers, following := p.following,
          public_repos := p.public_repos, created_at := p.created_at,
          updated_at := p.updated_at, confidenceScore := score,
          isLikelyUganda := isLikelyUganda normLoc,
          sourceQueries := e.sourceQueries })

/-- The comparator `(a, b) => b.confidenceScore - a.confidenceScore ||
b.followers - a.followers` as "a strictly precedes b". -/
def userBefore (x y : UgandaUser) : Bool :=
  y.confidenceScore < x.confidenceScore ||
    (y.confidenceScore == x.confidenceScore && y.followers < x.followers)

/-- Stable insertion for the sort model: a later element goes after every
earlier element it does not strictly precede. -/
def insertUser (x : UgandaUser) : List UgandaUser → List UgandaUser
  | [] => [x]
  | y :: rest => if userBefore x y then x :: y :: rest else y :: insertUser x rest

/-- `users.sort(...)`: stable sort, descending confidence score, ties by
descending follower count. -/
def sortUsers (l : List UgandaUser) : List UgandaUser :=
  l.foldl (fun acc x => insertUser x acc) []

/-- The configuration record of `scrapeUsers`. -/
structure ScrapeOptions where
  locations : List String
  minRepos : Nat
  minFollowers : Nat
  maxPagesPerQuery : Nat
  perPage : Nat
  concurrency : Nat
  minScore : Nat

/-- The value `scrapeUsers` resolves with. -/
structure ScrapeResult where
  users : List UgandaUser
  totalCandidates : Nat
  uniqueUsers : Nat
deriving DecidableEq

/-- The search fan-out loop of `scrapeUsers`: for each location in order,
build the query and run `searchUsers`; an error thrown by `searchUsers`
propagates (the loop has no `try`/`catch`). -/
def collectTerms (searchFetch : String → Nat → PageFetch) (opts : ScrapeOptions) :
    List String → Except GhError (List (String × List SearchItem))
  | [] => .ok []
  | loc :: rest =>
    let q := buildQuery loc opts.minRepos opts.minFollowers
    match searchUsers (searchFetch q) opts.maxPagesPerQuery with
    | .error e => .error e
    | .ok items =>
      match collectTerms searchFetch opts rest with
      | .error e => .error e
      | .ok tail => .ok ((q, items) :: tail)

/-- `scrapeUsers` (`src/lib/github.ts`): search fan-out, deduplication,
detail resolution, sort.  `searchFetch` maps a query string and page
number to that page's outcome; `fetchProfile` maps a login to its profile
(`none` when the fetch failed and was caught). -/
def scrapeUsers (searchFetch : String → Nat → PageFetch)
    (fetchProfile : String → Option RawProfile) (opts : ScrapeOptions) :
    Except GhError ScrapeResult :=
  match collectTerms searchFetch opts opts.locations with
  | .error e => .error e
  | .ok termResults =>
    let m := buildLoginMap termResults
    let users := resolveUsers (m.map Prod.snd) fetchProfile opts.minScore
    .ok { users := sortUsers users,
          totalCandidates := totalCandidatesOf termResults,
          uniqueUsers := m.length }

/-! ## Run cache model (the cache half of `src/lib/csv.ts`) -/

/-- `TTL_MS = 30 * 60 * 1000`. -/
def TTL_MS : Nat := 30 * 60 * 1000

/-- One cache entry: the stored records and the `Date.now()` of the put. -/
structure CacheEntry where
  users : List UgandaUser
  createdAt : Nat
deriving DecidableEq

/-- `cacheSet(runId, users)`: `store.set(runId, {users, createdAt: now})`.
The JS `Map` is an association list in insertion order; `set` replaces an
existing key in place or appends a new one. -/
def cacheSet (store : List (String × CacheEntry)) (runId : String)
    (users : List UgandaUser) (now : Nat) : List (String × CacheEntry) :=
  if store.any (fun p => p.1 == runId) then
    store.map (fun p => if p.1 == runId then (p.1, ⟨users, now⟩) else p)
  else store ++ [(runId, ⟨users, now⟩)]

/-- `cacheGet(runId)`: miss on unknown key; lazily delete and miss when
`now - createdAt > TTL_MS`; otherwise return the stored records.  Returns
the result together with the updated store. -/
def cacheGet (store : List (String × CacheEntry)) (runId : String)
    (now : Nat) : Option (List UgandaUser) × List (String × CacheEntry) :=
  match alookup runId store with
  | none => (none, store)
  | some entry =>
    if TTL_MS < now - entry.createdAt then
      (none, store.filter (fun p => !(p.1 == runId)))
    else (some entry.users, store)

/-- The periodic sweep `evict()`: delete every entry whose age exceeds the
TTL. -/
def evictCache (store : List (String × CacheEntry)) (now : Nat) :
    List (String × CacheEntry) :=
  store.filter (fun p => !(TTL_MS < now - p.2.createdAt : Bool))

/-! ## Specification-side predicates

These are written from the wording of the claims, independently of the
operational regexp scanners above, so that the scanners can be compared
against them. -/

/-- Every character of `w` is whitespace. -/
def AllWs (w : JStr) : Prop := ∀ c ∈ w, isJsWs c = true

/-- The abbreviation rule exactly as claim C4 words it: `ug` with the
previous character a space (the claim's "preceded by a comma+space or a
space" — both cases end in a space) and followed by a comma, a space or
the end of the string; or the dotted form `u.g.` as a whole word (bounded
by string edges or non-word characters). -/
def claimC4Cond (s : JStr) : Bool :=
  (List.range s.length).any (fun i =>
    ((s.drop i).take 2 == [117, 103]) &&
    (match (s.take i).getLast? with
     | some c => c == 32
     | none => false) &&
    (match s.drop (i + 2) with
     | [] => true
     | c :: _ => c == 44 || c == 32)) ||
  (List.range s.length).any (fun j =>
    ((s.drop j).take 4 == [117, 46, 103, 46]) &&
    (match (s.take j).getLast? with
     | some c => !isWordChar c
     | none => true) &&
    (match s.drop (j + 4) with
     | [] => true
     | c :: _ => !isWordChar c))

/-- Declarative reading of the abbreviation regexp, for the amended claim:
`ug` occurs preceded by a comma followed by optional whitespace, or by a
literal space; and followed by end of string, a whitespace character, or
optional whitespace then a comma. -/
def AmendedAbbrev (s : JStr) : Prop :=
  ∃ a b, s = a ++ 117 :: 103 :: b ∧
    ((∃ a1 w, a = a1 ++ 44 :: w ∧ AllWs w) ∨ (∃ a1, a = a1 ++ [32])) ∧
    (b = [] ∨ (∃ c b1, b = c :: b1 ∧ isJsWs c = true) ∨
      (∃ w b1, b = w ++ 44 :: b1 ∧ AllWs w))

/-- Right context of the dotted abbreviation: end of string or a non-word
character. -/
def DottedTailOk (b : JStr) : Prop :=
  b = [] ∨ ∃ c b1, b = c :: b1 ∧ isWordChar c = false

/-- Declarative reading of the dotted regexp, for the amended claim:
`u.g` occurs bounded on the left by the string start or a non-word
character and on the right by the string end or a non-word character
(the optional trailing dot adds no further matches). -/
def AmendedDotted (s : JStr) : Prop :=
  ∃ a b, s = a ++ 117 :: 46 :: 103 :: b ∧
    (a = [] ∨ ∃ a1 c, a = a1 ++ [c] ∧ isWordChar c = false) ∧
    DottedTailOk b

/-! ## Canonical-form predicate for the normaliser -/

/-- A character the normaliser can output: not an emoji, fixed by
lowercasing, and if whitespace then exactly a space. -/
def goodChar (c : Nat) : Bool :=
  !isEmojiChar c && (jsToLower c == c) && (!isJsWs c || c == 32)

/-- No two adjacent whitespace characters. -/
def noWsRun : JStr → Bool
  | [] => true
  | [_] => true
  | a :: b :: rest => !(isJsWs a && isJsWs b) && noWsRun (b :: rest)

/-- The first character, if any, is not whitespace. -/
def headNonWs : JStr → Bool
  | [] => true
  | c :: _ => !isJsWs c

/-- Canonical strings: all characters good, no whitespace runs, no
whitespace at either end.  Every output of `normaliseLocation` is
canonical, and the cleanup stages fix canonical strings. -/
def Canon (l : JStr) : Bool :=
  l.all goodChar && noWsRun l && headNonWs l && headNonWs l.reverse

/-! ## Concrete runs used as counterexamples and witnesses -/

/-- A rate-limited 403 response (`x-ratelimit-remaining: 0`). -/
def rlResponse : GhResponse := ⟨false, 403, true, false⟩

/-- A rate-limited 429 response (body mentions the rate limit). -/
def rl429Response : GhResponse := ⟨false, 429, false, true⟩

/-- One concrete search item. -/
def item1 : SearchItem := ⟨"user1", 1, "", ""⟩

/-- A search oracle for which the query for location `A` succeeds on page
1 (reporting 5 total results) and fails terminally on page 2, while every
other query returns an empty page. -/
def cexSearchFetch : String → Nat → PageFetch := fun q page =>
  if q = "location:" ++ "\"" ++ "A" ++ "\"" then
    (if page = 1 then .ok [item1] 5 else .err (.apiError 500))
  else .ok [] 0

/-- Options searching locations `A` then `B`, two pages per query. -/
def cexOpts : ScrapeOptions := ⟨["A", "B"], 0, 0, 2, 100, 5, 50⟩

/-- A profile for `user1` located in `Kampala, Uganda`. -/
def okProfile : RawProfile :=
  ⟨"user1", 1, "", "", none, some (str "Kampala, Uganda"), none, none, none,
   none, none, 10, 5, 3, "2020", "2023"⟩

/-- A profile oracle resolving only `user1`. -/
def okProfileFetch : String → Option RawProfile :=
  fun l => if l = "user1" then some okProfile else none

/-- A search oracle returning a single one-item page for every query. -/
def okSearchFetch : String → Nat → PageFetch := fun _ _ => .ok [item1] 1

/-- Options searching the single location `Uganda`, one page. -/
def okOpts : ScrapeOptions := ⟨["Uganda"], 0, 0, 1, 100, 5, 50⟩

/-- The output record produced for `user1` in the successful run. -/
def okUser : UgandaUser :=
  ⟨"user1", 1, "", "", none, some (str "Kampala, Uganda"), none, none, none,
   none, none, 10, 5, 3, "2020", "2023", 100, true,
   ["location:" ++ "\"" ++ "Uganda" ++ "\""]⟩

/-- The full result of the successful run. -/
def okRun : ScrapeResult := ⟨[okUser], 1, 1⟩

/-! ## C7: end-to-end normalise / score scenario -/

/-- C7: the raw location `"  Kampala UG  "` normalises (trim, whitespace
collapse, lowercase, alias table) to exactly `"kampala, uganda"`, and that
normalised string scores exactly 100. -/
theorem normalise_kampala_ug_end_to_end :
    normaliseLocation (some (str "  Kampala UG  ")) = str "kampala, uganda" ∧
    computeConfidenceScore (str "kampala, uganda") = 100 := by
  decide

/-! ## C10: the score range and `isUgandaLocation` -/

/-- C10: for every input string `computeConfidenceScore` returns one of
0, 50, 75, 85, 100, and `isUgandaLocation` holds exactly when the score is
one of 50, 75, 85, 100. -/
theorem score_values_and_isUganda (s : JStr) :
    (computeConfidenceScore s = 0 ∨ computeConfidenceScore s = 50 ∨
     computeConfidenceScore s = 75 ∨ computeConfidenceScore s = 85 ∨
     computeConfidenceScore s = 100) ∧
    (isUgandaLocation s = true ↔
      (computeConfidenceScore s = 50 ∨ computeConfidenceScore s = 75 ∨
       computeConfidenceScore s = 85 ∨ computeConfidenceScore s = 100)) := by
  have hmem : computeConfidenceScore s = 0 ∨ computeConfidenceScore s = 50 ∨
      computeConfidenceScore s = 75 ∨ computeConfidenceScore s = 85 ∨
      computeConfidenceScore s = 100 := by
    unfold computeConfidenceScore
    split_ifs <;> simp
  refine ⟨hmem, ?_⟩
  unfold isUgandaLocation
  rcases hmem with h | h | h | h | h <;> rw [h] <;> simp

/-! ## C6: the country rule dominates -/

/-- C6: every string containing the substring `uganda` scores exactly 100,
whatever other signals it also contains (the rules are tried in priority
order and the country rule comes first). -/
theorem score_of_contains_uganda (s : JStr)
    (h : containsSub (str "uganda") s = true) :
    computeConfidenceScore s = 100 := by
  have hne : s ≠ [] := by
    intro he
    rw [he] at h
    exact absurd h (by decide)
  unfold computeConfidenceScore
  rw [if_neg hne, if_pos h]

/-- Witness for C6 at a string that also contains a city name and an
abbreviation token. -/
theorem score_of_contains_uganda_witness :
    containsSub (str "uganda") (str "kampala, ug, uganda") = true ∧
    computeConfidenceScore (str "kampala, ug, uganda") = 100 :=
  ⟨by decide, score_of_contains_uganda _ (by decide)⟩

/-! ## C2: what error surfaces when retries run out -/

/-- C2 counterexample: with every attempt rate-limited, exhausting the
retries of `ghFetch` surfaces the generic `GitHub API 403` error — the
same shape as a terminal failure — not the distinct `Exhausted retries`
error the claim announces. -/
theorem ghFetch_exhaustion_cex :
    ghFetch (fun _ => rlResponse) 3 = Except.error (GhError.apiError 403) ∧
    GhError.apiError 403 ≠ GhError.exhaustedRetries :=
  ⟨rfl, by simp⟩

/-- C2 amended: when a rate-limit response recurs on every attempt, the
error surfaced after the retries are used up is the terminal
`GitHub API ${status}` error carrying the final attempt's status (the
trailing `Exhausted retries` throw is unreachable because the final loop
iteration always returns or throws the terminal error itself). -/
theorem ghFetch_exhaustion_surfaces_api_error
    (responses : Nat → GhResponse) (maxRetries : Nat)
    (hrl : ∀ a, a ≤ maxRetries →
      (responses a).ok = false ∧ isRateLimited (responses a) = true) :
    ghFetch responses maxRetries =
      Except.error (GhError.apiError (responses maxRetries).status) := by
  have key : ∀ remaining attempt, attempt + remaining = maxRetries + 1 →
      1 ≤ remaining →
      ghFetchAux responses maxRetries attempt remaining =
        Except.error (GhError.apiError (responses maxRetries).status) := by
    intro remaining
    induction remaining with
    | zero => intro attempt h hr; omega
    | succ r ih =>
      intro attempt h hr1
      have ha : attempt ≤ maxRetries := by omega
      obtain ⟨hok, hrate⟩ := hrl attempt ha
      show ghFetchAux responses maxRetries attempt (r + 1) = _
      rw [ghFetchAux]
      simp only [hok]
      by_cases hlt : attempt < maxRetries
      · have hr : r ≥ 1 := by omega
        rw [if_neg (by simp), if_pos (by simp [hrate, hlt])]
        exact ih (attempt + 1) (by omega) (by omega)
      · have : attempt = maxRetries := by omega
        rw [if_neg (by simp), if_neg (by simp [hlt])]
        rw [this]
  exact key (maxRetries + 1) 0 (by omega) (by omega)

/-- Witness for C2 (amended) with two retries of a 429 response. -/
theorem ghFetch_exhaustion_surfaces_api_error_witness :
    (∀ a, a ≤ 2 → ((fun _ => rl429Response) a : GhResponse).ok = false ∧
      isRateLimited ((fun _ => rl429Response) a) = true) ∧
    ghFetch (fun _ => rl429Response) 2 =
      Except.error (GhError.apiError ((fun _ => rl429Response) 2 : GhResponse).status) :=
  ⟨fun _ _ => ⟨rfl, rfl⟩,
   ghFetch_exhaustion_surfaces_api_error _ 2 (fun _ _ => ⟨rfl, rfl⟩)⟩

/-! ## C3: provenance accumulation in the deduplication map -/

/-- C3 counterexample: when the same identity is returned twice under the
same term, the fan-out loop pushes the term again unconditionally, so the
provenance list holds the term twice consecutively — contradicting the
claim that a term is never appended twice consecutively. -/
theorem dedup_consecutive_duplicate_cex :
    buildLoginMap [("T", [item1, item1])] =
      [("user1", ⟨item1, ["T", "T"]⟩)] := by
  rfl

/-- C3 amended: an identity seen again under the same term has that term
appended again (so the same term can appear twice consecutively); an
identity surfaced by terms `T1` then `T2` ends with provenance exactly
`[T1, T2]`, counted once in `uniqueCandidates` and twice in
`totalCandidatesSeen`. -/
theorem dedup_provenance_order (t1 t2 : String) (x : SearchItem)
    (_hne : t1 ≠ t2) :
    buildLoginMap [(t1, [x]), (t2, [x])] = [(x.login, ⟨x, [t1, t2]⟩)] ∧
    (buildLoginMap [(t1, [x]), (t2, [x])]).length = 1 ∧
    totalCandidatesOf [(t1, [x]), (t2, [x])] = 2 ∧
    buildLoginMap [(t1, [x, x])] = [(x.login, ⟨x, [t1, t1]⟩)] := by
  refine ⟨?_, ?_, rfl, ?_⟩ <;>
    simp [buildLoginMap, addTermItems, addItem, alookup]

/-- Witness for C3 (amended) with two distinct concrete terms. -/
theorem dedup_provenance_order_witness :
    ("A" : String) ≠ "B" ∧
    (buildLoginMap [("A", [item1]), ("B", [item1])] =
        [(item1.login, ⟨item1, ["A", "B"]⟩)] ∧
      (buildLoginMap [("A", [item1]), ("B", [item1])]).length = 1 ∧
      totalCandidatesOf [("A", [item1]), ("B", [item1])] = 2 ∧
      buildLoginMap [("A", [item1, item1])] =
        [(item1.login, ⟨item1, ["A", "A"]⟩)]) :=
  ⟨by decide, dedup_provenance_order "A" "B" item1 (by decide)⟩

/-! ## Association-list lemmas for the cache model -/

theorem alookup_none_of_forall_ne {β : Type} (k : String) :
    ∀ l : List (String × β), (∀ p ∈ l, p.1 ≠ k) → alookup k l = none := by
  intro l
  induction l with
  | nil => intro _; rfl
  | cons hd t ih =>
    intro h
    have h1 : hd.1 ≠ k := h hd (by simp)
    have hf : (hd.1 == k) = false := beq_eq_false_iff_ne.mpr h1
    simp only [alookup, hf, Bool.false_eq_true, if_false]
    exact ih (fun p hp => h p (List.mem_cons_of_mem _ hp))

theorem alookup_mapReplace (runId : String) (e : CacheEntry) :
    ∀ l : List (String × CacheEntry),
      l.any (fun p => p.1 == runId) = true →
      alookup runId
        (l.map (fun p => if p.1 == runId then (p.1, e) else p)) = some e := by
  intro l
  induction l with
  | nil => intro h; simp at h
  | cons hd t ih =>
    intro h
    by_cases hk : (hd.1 == runId) = true
    · simp only [List.map_cons, hk, if_true, alookup, if_pos hk]
    · have hf : (hd.1 == runId) = false := Bool.eq_false_iff.mpr hk
      have ht : t.any (fun p => p.1 == runId) = true := by
        simp only [List.any_cons, hf, Bool.false_or] at h
        exact h
      simp only [List.map_cons, hf, Bool.false_eq_true, if_false, alookup]
      exact ih ht

theorem alookup_appendNew {β : Type} (runId : String) (e : β) :
    ∀ l : List (String × β),
      l.any (fun p => p.1 == runId) = false →
      alookup runId (l ++ [(runId, e)]) = some e := by
  intro l
  induction l with
  | nil => intro _; simp [alookup]
  | cons hd t ih =>
    intro h
    simp only [List.any_cons, Bool.or_eq_false_iff] at h
    simp only [List.cons_append, alookup, h.1, Bool.false_eq_true, if_false]
    exact ih h.2

theorem alookup_cacheSet (store : List (String × CacheEntry)) (runId : String)
    (users : List UgandaUser) (now : Nat) :
    alookup runId (cacheSet store runId users now) = some ⟨users, now⟩ := by
  unfold cacheSet
  by_cases h : store.any (fun p => p.1 == runId) = true
  · rw [if_pos h]
    exact alookup_mapReplace runId ⟨users, now⟩ store h
  · rw [if_neg h]
    exact alookup_appendNew runId ⟨users, now⟩ store (Bool.eq_false_iff.mpr h)

theorem keys_mapReplace (runId : String) (e : CacheEntry) :
    ∀ l : List (String × CacheEntry),
      (l.map (fun p => if p.1 == runId then (p.1, e) else p)).map Prod.fst =
        l.map Prod.fst := by
  intro l
  induction l with
  | nil => rfl
  | cons hd t ih =>
    by_cases hk : (hd.1 == runId) = true
    · simp only [List.map_cons, hk, if_true, ih]
    · simp only [List.map_cons, Bool.eq_false_iff.mpr hk, Bool.false_eq_true,
        if_false, ih]

theorem keys_cacheSet_nodup (store : List (String × CacheEntry))
    (runId : String) (users : List UgandaUser) (now : Nat)
    (hnd : (store.map Prod.fst).Nodup) :
    ((cacheSet store runId users now).map Prod.fst).Nodup := by
  unfold cacheSet
  by_cases h : store.any (fun p => p.1 == runId) = true
  · rw [if_pos h, keys_mapReplace]
    exact hnd
  · rw [if_neg h]
    have hnot : runId ∉ store.map Prod.fst := by
      intro hmem
      obtain ⟨p, hp, hp1⟩ := List.mem_map.mp hmem
      have : store.any (fun q => q.1 == runId) = true :=
        List.any_eq_true.mpr ⟨p, hp, by simp [hp1]⟩
      exact h this
    simp only [List.map_append, List.map_cons, List.map_nil]
    rw [List.nodup_append]
    refine ⟨hnd, List.nodup_singleton runId, ?_⟩
    intro a ha hb
    simp only [List.mem_singleton] at hb
    subst hb
    exact hnot ha

theorem alookup_filter_nodup (p : String × CacheEntry → Bool) (k : String) :
    ∀ l : List (String × CacheEntry), (l.map Prod.fst).Nodup →
      alookup k (l.filter p) =
        (match alookup k l with
         | some v => if p (k, v) then some v else none
         | none => none) := by
  intro l
  induction l with
  | nil => intro _; rfl
  | cons hd t ih =>
    intro hnd
    obtain ⟨k0, v0⟩ := hd
    simp only [List.map_cons, List.nodup_cons] at hnd
    obtain ⟨hk0, hnt⟩ := hnd
    by_cases hkk : (k0 == k) = true
    · have hek : k0 = k := eq_of_beq hkk
      subst hek
      by_cases hp : p (k0, v0) = true
      · simp [List.filter_cons, hp, alookup]
      · have hpf : p (k0, v0) = false := Bool.eq_false_iff.mpr hp
        simp only [List.filter_cons, hpf, Bool.false_eq_true, if_false,
          alookup, beq_self_eq_true, if_true]
        rw [alookup_none_of_forall_ne k0 (t.filter p)]
        intro q hq hq1
        exact hk0 (List.mem_map.mpr ⟨q, List.mem_of_mem_filter hq, hq1⟩)
    · have hf : (k0 == k) = false := Bool.eq_false_iff.mpr hkk
      by_cases hp : p (k0, v0) = true
      · simp only [List.filter_cons, hp, if_true, alookup, hf,
          Bool.false_eq_true, if_false]
        exact ih hnt
      · simp only [List.filter_cons, Bool.eq_false_iff.mpr hp,
          Bool.false_eq_true, if_false, alookup, hf]
        exact ih hnt

/-! ## C9: the run-cache TTL contract -/

/-- C9: after a `put` (`cacheSet`), a `get` whose elapsed time is within
the TTL returns exactly the stored records; a `get` after the TTL has
elapsed returns "not found"; and an expired entry is never returned even
if a periodic sweep (`evict`) ran first, at any time. -/
theorem cache_ttl_contract (store : List (String × CacheEntry))
    (runId : String) (users : List UgandaUser) (t0 t1 t2 : Nat)
    (hnd : (store.map Prod.fst).Nodup) :
    (t1 - t0 ≤ TTL_MS →
      (cacheGet (cacheSet store runId users t0) runId t1).1 = some users) ∧
    (TTL_MS < t1 - t0 →
      (cacheGet (cacheSet store runId users t0) runId t1).1 = none) ∧
    (TTL_MS < t1 - t0 →
      (cacheGet (evictCache (cacheSet store runId users t0) t2) runId t1).1 =
        none) := by
  have hl := alookup_cacheSet store runId users t0
  refine ⟨?_, ?_, ?_⟩
  · intro hfresh
    unfold cacheGet
    rw [hl]
    simp only [if_neg (by omega : ¬ TTL_MS < t1 - t0)]
  · intro hexp
    unfold cacheGet
    rw [hl]
    simp only [if_pos hexp]
  · intro hexp
    have hnd1 := keys_cacheSet_nodup store runId users t0 hnd
    unfold evictCache cacheGet
    rw [alookup_filter_nodup _ runId _ hnd1, hl]
    by_cases hkeep :
        (!(TTL_MS < t2 - (⟨users, t0⟩ : CacheEntry).createdAt : Bool)) = true
    · simp only [hkeep, ite_true, if_pos hexp]
    · simp only [Bool.eq_false_iff.mpr hkeep, Bool.false_eq_true, ite_false]

/-- Witness for C9: empty prior store, put at time 0, gets at a time past
the TTL. -/
theorem cache_ttl_contract_witness :
    ((([] : List (String × CacheEntry)).map Prod.fst).Nodup) ∧
    ((2000000 - 0 ≤ TTL_MS →
        (cacheGet (cacheSet [] "run-1" [] 0) "run-1" 2000000).1 = some []) ∧
      (TTL_MS < 2000000 - 0 →
        (cacheGet (cacheSet [] "run-1" [] 0) "run-1" 2000000).1 = none) ∧
      (TTL_MS < 2000000 - 0 →
        (cacheGet (evictCache (cacheSet [] "run-1" [] 0) 2000000)
          "run-1" 2000000).1 = none)) :=
  ⟨by simp, cache_ttl_contract [] "run-1" [] 0 2000000 2000000 (by simp)⟩

/-! ## Counting lemmas for the scrape pipeline -/

theorem length_addItem (m : List (String × CandidateEntry)) (q : String)
    (it : SearchItem) : (addItem m q it).length ≤ m.length + 1 := by
  unfold addItem
  cases alookup it.login m with
  | some e => simp
  | none => simp

theorem length_addTermItems (q : String) :
    ∀ (items : List SearchItem) (m : List (String × CandidateEntry)),
      (addTermItems m q items).length ≤ m.length + items.length := by
  intro items
  induction items with
  | nil => intro m; simp [addTermItems]
  | cons it rest ih =>
    intro m
    have h1 : addTermItems m q (it :: rest) = addTermItems (addItem m q it) q rest := rfl
    rw [h1]
    calc (addTermItems (addItem m q it) q rest).length
        ≤ (addItem m q it).length + rest.length := ih (addItem m q it)
      _ ≤ (m.length + 1) + rest.length := by
          have := length_addItem m q it
          omega
      _ = m.length + (rest.length + 1) := by omega
      _ = m.length + (it :: rest).length := by simp

theorem totalCandidates_shift :
    ∀ (trs : List (String × List SearchItem)) (a : Nat),
      trs.foldl (fun acc tr => acc + tr.2.length) a =
        a + trs.foldl (fun acc tr => acc + tr.2.length) 0 := by
  intro trs
  induction trs with
  | nil => intro a; simp
  | cons tr rest ih =>
    intro a
    simp only [List.foldl_cons]
    rw [ih (a + tr.2.length), ih (0 + tr.2.length)]
    omega

theorem length_buildLoginMap (trs : List (String × List SearchItem)) :
    (buildLoginMap trs).length ≤ totalCandidatesOf trs := by
  unfold buildLoginMap totalCandidatesOf
  suffices h : ∀ (trs : List (String × List SearchItem))
      (m : List (String × CandidateEntry)),
      (trs.foldl (fun m tr => addTermItems m tr.1 tr.2) m).length ≤
        m.length + trs.foldl (fun acc tr => acc + tr.2.length) 0 by
    simpa using h trs []
  intro trs2
  induction trs2 with
  | nil => intro m; simp
  | cons tr rest ih =>
    intro m
    simp only [List.foldl_cons]
    calc (rest.foldl (fun m tr => addTermItems m tr.1 tr.2)
            (addTermItems m tr.1 tr.2)).length
        ≤ (addTermItems m tr.1 tr.2).length +
            rest.foldl (fun acc tr => acc + tr.2.length) 0 := ih _
      _ ≤ (m.length + tr.2.length) +
            rest.foldl (fun acc tr => acc + tr.2.length) 0 := by
          have := length_addTermItems tr.1 tr.2 m
          omega
      _ = m.length + (tr.2.length +
            rest.foldl (fun acc tr => acc + tr.2.length) 0) := by omega
      _ = m.length + ((tr :: rest).foldl (fun acc tr => acc + tr.2.length) 0) := by
          simp only [List.foldl_cons]
          rw [totalCandidates_shift rest (0 + tr.2.length)]
          omega

theorem length_insertUser (x : UgandaUser) :
    ∀ l : List UgandaUser, (insertUser x l).length = l.length + 1 := by
  intro l
  induction l with
  | nil => rfl
  | cons y rest ih =>
    unfold insertUser
    by_cases h : userBefore x y = true
    · simp [h]
    · simp only [Bool.eq_false_iff.mpr h, Bool.false_eq_true, if_false,
        List.length_cons, ih]

theorem length_sortUsers (l : List UgandaUser) :
    (sortUsers l).length = l.length := by
  unfold sortUsers
  suffices h : ∀ (l acc : List UgandaUser),
      (l.foldl (fun acc x => insertUser x acc) acc).length =
        acc.length + l.length by
    simpa using h l []
  intro l2
  induction l2 with
  | nil => intro acc; simp
  | cons x rest ih =>
    intro acc
    simp only [List.foldl_cons]
    rw [ih (insertUser x acc), length_insertUser]
    simp only [List.length_cons]
    omega

/-! ## C8: the count invariants of a completed run -/

/-- C8: every completed run's counts satisfy
`keptAfterFilter ≤ uniqueCandidates ≤ totalCandidatesSeen`: each unique
entry produces at most one output record (failed or filtered candidates
produce none), and the deduplication map never grows beyond the sum of
the per-term candidate counts. -/
theorem scrape_counts_monotone (searchFetch : String → Nat → PageFetch)
    (fetchProfile : String → Option RawProfile) (opts : ScrapeOptions)
    (r : ScrapeResult)
    (h : scrapeUsers searchFetch fetchProfile opts = Except.ok r) :
    r.users.length ≤ r.uniqueUsers ∧ r.uniqueUsers ≤ r.totalCandidates := by
  unfold scrapeUsers at h
  cases hc : collectTerms searchFetch opts opts.locations with
  | error e => rw [hc] at h; exact absurd h (by simp)
  | ok termResults =>
    rw [hc] at h
    simp only [Except.ok.injEq] at h
    subst h
    constructor
    · simp only [length_sortUsers]
      calc (resolveUsers ((buildLoginMap termResults).map Prod.snd)
              fetchProfile opts.minScore).length
          ≤ ((buildLoginMap termResults).map Prod.snd).length :=
            List.length_filterMap_le _ _
        _ = (buildLoginMap termResults).length := List.length_map _ _
    · exact length_buildLoginMap termResults

/-- Witness for C8: the one-term, one-candidate run that succeeds. -/
theorem scrape_counts_monotone_witness :
    scrapeUsers okSearchFetch okProfileFetch okOpts = Except.ok okRun ∧
    okRun.users.length ≤ okRun.uniqueUsers ∧
    okRun.uniqueUsers ≤ okRun.totalCandidates :=
  ⟨by rfl, scrape_counts_monotone okSearchFetch okProfileFetch okOpts okRun (by rfl)⟩

/-! ## C1: a terminal search failure aborts the whole run -/

theorem collectTerms_append_error (searchFetch : String → Nat → PageFetch)
    (opts : ScrapeOptions) (a : String) (post : List String) (e : GhError)
    (ha : searchUsers (searchFetch (buildQuery a opts.minRepos opts.minFollowers))
        opts.maxPagesPerQuery = Except.error e) :
    ∀ pre : List String,
      (∀ loc ∈ pre, ∃ items,
        searchUsers (searchFetch (buildQuery loc opts.minRepos opts.minFollowers))
          opts.maxPagesPerQuery = Except.ok items) →
      collectTerms searchFetch opts (pre ++ a :: post) = Except.error e := by
  intro pre
  induction pre with
  | nil =>
    intro _
    simp only [List.nil_append]
    unfold collectTerms
    simp only [ha]
  | cons loc pre2 ih =>
    intro hpre
    obtain ⟨items, hitems⟩ := hpre loc (by simp)
    have htail := ih (fun l hl => hpre l (List.mem_cons_of_mem _ hl))
    simp only [List.cons_append]
    unfold collectTerms
    simp only [hitems, htail]

/-- C1 counterexample: with two search terms `A` and `B`, a terminal
failure on page 2 of term `A` makes `scrapeUsers` itself reject with that
error — term `A`'s page-1 results are discarded, term `B` is never
searched, and no `ScrapeResult` is produced, contrary to the claim. -/
theorem scrape_search_failure_cex :
    scrapeUsers cexSearchFetch (fun _ => none) cexOpts =
      Except.error (GhError.apiError 500) := by
  rfl

/-- C1 amended: a terminal remote failure (non-rate-limit error or retries
exhausted) while searching one term aborts the entire run: `searchUsers`
and the fan-out loop have no error handling, so `scrapeUsers` rejects
with that term's error, the term's partial pages are discarded and the
remaining terms are not searched. -/
theorem scrape_search_failure_aborts (searchFetch : String → Nat → PageFetch)
    (fetchProfile : String → Option RawProfile) (opts : ScrapeOptions)
    (pre post : List String) (a : String) (e : GhError)
    (hloc : opts.locations = pre ++ a :: post)
    (hpre : ∀ loc ∈ pre, ∃ items,
      searchUsers (searchFetch (buildQuery loc opts.minRepos opts.minFollowers))
        opts.maxPagesPerQuery = Except.ok items)
    (ha : searchUsers (searchFetch (buildQuery a opts.minRepos opts.minFollowers))
        opts.maxPagesPerQuery = Except.error e) :
    scrapeUsers searchFetch fetchProfile opts = Except.error e := by
  unfold scrapeUsers
  rw [hloc, collectTerms_append_error searchFetch opts a post e ha pre hpre]

/-- Witness for C1 (amended) on the concrete failing run, with a profile
oracle that would have resolved every candidate. -/
theorem scrape_search_failure_aborts_witness :
    cexOpts.locations = [] ++ "A" :: ["B"] ∧
    scrapeUsers cexSearchFetch okProfileFetch cexOpts =
      Except.error (GhError.apiError 500) :=
  ⟨rfl, scrape_search_failure_aborts cexSearchFetch okProfileFetch cexOpts
    [] ["B"] "A" (GhError.apiError 500) rfl (by simp) (by rfl)⟩

/-! ## Regexp-semantics lemmas for the abbreviation rules -/

theorem ugTailOk_iff (b : JStr) :
    ugTailOk b = true ↔
      (b = [] ∨ (∃ c b1, b = c :: b1 ∧ isJsWs c = true) ∨
        (∃ w b1, b = w ++ 44 :: b1 ∧ AllWs w)) := by
  constructor
  · intro h
    cases b with
    | nil => exact Or.inl rfl
    | cons c rest =>
      simp only [ugTailOk, Bool.or_eq_true, beq_iff_eq] at h
      rcases h with h | h
      · exact Or.inr (Or.inl ⟨c, rest, rfl, h⟩)
      · subst h
        exact Or.inr (Or.inr ⟨[], rest, rfl, fun c hc => absurd hc (by simp)⟩)
  · intro h
    rcases h with rfl | ⟨c, b1, rfl, hc⟩ | ⟨w, b1, hw, hall⟩
    · rfl
    · simp [ugTailOk, hc]
    · subst hw
      cases w with
      | nil => simp [ugTailOk]
      | cons d w2 =>
        have hd : isJsWs d = true := hall d (by simp)
        simp [ugTailOk, hd]

theorem ugCore_iff (t : JStr) :
    ugCore t = true ↔ ∃ b, t = 117 :: 103 :: b ∧ ugTailOk b = true := by
  match t with
  | [] => simp [ugCore]
  | [c1] => simp [ugCore]
  | c1 :: c2 :: rest =>
    simp only [ugCore, Bool.and_eq_true, beq_iff_eq, List.cons.injEq]
    constructor
    · rintro ⟨⟨h1, h2⟩, h3⟩
      exact ⟨rest, ⟨h1, h2, rfl⟩, h3⟩
    · rintro ⟨b, ⟨h1, h2, rfl⟩, h3⟩
      exact ⟨⟨h1, h2⟩, h3⟩

theorem takeWhile_allWs (l : JStr) : AllWs (l.takeWhile isJsWs) :=
  fun _ hc => List.mem_takeWhile_imp hc

theorem skipWs_append_allWs (w t : JStr) (h : AllWs w) :
    skipWs (w ++ t) = skipWs t := by
  induction w with
  | nil => rfl
  | cons d w2 ih =>
    have hd := h d (by simp)
    simp only [skipWs, List.cons_append, List.dropWhile_cons, hd, if_true]
    exact ih (fun c hc => h c (by simp [hc]))

theorem skipWs_cons_of_neg (c : Nat) (rest : JStr) (h : isJsWs c = false) :
    skipWs (c :: rest) = c :: rest := by
  simp [skipWs, List.dropWhile_cons, h]

theorem amendedAbbrev_cons (c : Nat) (rest : JStr) (h : AmendedAbbrev rest) :
    AmendedAbbrev (c :: rest) := by
  obtain ⟨a, b, heq, hpre, htail⟩ := h
  refine ⟨c :: a, b, by rw [heq]; rfl, ?_, htail⟩
  rcases hpre with ⟨a1, w, ha, hw⟩ | ⟨a1, ha⟩
  · exact Or.inl ⟨c :: a1, w, by rw [ha]; rfl, hw⟩
  · exact Or.inr ⟨c :: a1, by rw [ha]; rfl⟩

theorem amendedAbbrev_of_scan : ∀ s : JStr, ugAbbrevScan s = true → AmendedAbbrev s := by
  intro s
  induction s with
  | nil => intro h; exact absurd h (by simp [ugAbbrevScan])
  | cons c rest ih =>
    intro h
    simp only [ugAbbrevScan, Bool.or_eq_true] at h
    rcases h with h | h
    · simp only [ugStep, Bool.or_eq_true, Bool.and_eq_true, beq_iff_eq] at h
      rcases h with ⟨hc, hcore⟩ | ⟨hc, hcore⟩
      · subst hc
        obtain ⟨b, hb, htail⟩ := (ugCore_iff _).mp hcore
        have hsplit : rest.takeWhile isJsWs ++ skipWs rest = rest :=
          List.takeWhile_append_dropWhile isJsWs rest
        refine ⟨44 :: rest.takeWhile isJsWs, b, ?_, ?_, (ugTailOk_iff b).mp htail⟩
        · conv_lhs => rw [← hsplit, hb]
          rfl
        · exact Or.inl ⟨[], rest.takeWhile isJsWs, rfl, takeWhile_allWs rest⟩
      · subst hc
        obtain ⟨b, hb, htail⟩ := (ugCore_iff rest).mp hcore
        exact ⟨[32], b, by rw [hb]; rfl, Or.inr ⟨[], rfl⟩,
          (ugTailOk_iff b).mp htail⟩
    · exact amendedAbbrev_cons c rest (ih h)

theorem scan_of_amendedAbbrev : ∀ s : JStr, AmendedAbbrev s → ugAbbrevScan s = true := by
  intro s
  induction s with
  | nil =>
    rintro ⟨a, b, heq, _, _⟩
    exact absurd heq (by simp)
  | cons c rest ih =>
    rintro ⟨a, b, heq, hpre, htail⟩
    cases a with
    | nil =>
      exfalso
      rcases hpre with ⟨a1, w, ha, _⟩ | ⟨a1, ha⟩
      · exact absurd ha (by simp)
      · exact absurd ha (by simp)
    | cons a0 a1 =>
      simp only [List.cons_append, List.cons.injEq] at heq
      obtain ⟨hca, hrest⟩ := heq
      subst hca
      simp only [ugAbbrevScan, Bool.or_eq_true]
      rcases hpre with ⟨p, w, ha, hw⟩ | ⟨p, ha⟩
      · cases p with
        | nil =>
          simp only [List.nil_append, List.cons.injEq] at ha
          obtain ⟨h0, h1⟩ := ha
          subst h0
          subst h1
          have hcore : ugCore (skipWs rest) = true := by
            rw [hrest, skipWs_append_allWs a1 _ hw,
              skipWs_cons_of_neg 117 _ (by decide)]
            exact (ugCore_iff _).mpr ⟨b, rfl, (ugTailOk_iff b).mpr htail⟩
          left
          simp [ugStep, hcore]
        | cons p0 p1 =>
          simp only [List.cons_append, List.cons.injEq] at ha
          obtain ⟨h0, h1⟩ := ha
          right
          apply ih
          exact ⟨a1, b, hrest, Or.inl ⟨p1, w, h1, hw⟩, htail⟩
      · cases p with
        | nil =>
          simp only [List.nil_append, List.cons.injEq] at ha
          obtain ⟨h0, h1⟩ := ha
          subst h0
          subst h1
          have hcore : ugCore rest = true := by
            simp only [List.nil_append] at hrest
            rw [hrest]
            exact (ugCore_iff _).mpr ⟨b, rfl, (ugTailOk_iff b).mpr htail⟩
          left
          simp [ugStep, hcore]
        | cons p0 p1 =>
          simp only [List.cons_append, List.cons.injEq] at ha
          obtain ⟨h0, h1⟩ := ha
          right
          apply ih
          exact ⟨a1, b, hrest, Or.inr ⟨p1, h1⟩, htail⟩

theorem ugScan_iff (s : JStr) : ugAbbrevScan s = true ↔ AmendedAbbrev s :=
  ⟨amendedAbbrev_of_scan s, scan_of_amendedAbbrev s⟩

theorem dottedTail_iff (b : JStr) :
    (match b with
     | [] => true
     | d :: _ => !isWordChar d) = true ↔ DottedTailOk b := by
  cases b with
  | nil => simp [DottedTailOk]
  | cons d b1 =>
    simp only [Bool.not_eq_eq_eq_not, Bool.not_true, DottedTailOk]
    constructor
    · intro h
      exact Or.inr ⟨d, b1, rfl, h⟩
    · rintro (h | ⟨c, b2, heq, hc⟩)
      · exact absurd h (by simp)
      · simp only [List.cons.injEq] at heq
        rw [heq.1]
        exact hc

theorem dottedCore_iff (t : JStr) :
    dottedCore t = true ↔ ∃ b, t = 117 :: 46 :: 103 :: b ∧ DottedTailOk b := by
  match t with
  | [] => simp [dottedCore]
  | [c1] => simp [dottedCore]
  | [c1, c2] => simp [dottedCore]
  | c1 :: c2 :: c3 :: rest =>
    simp only [dottedCore, Bool.and_eq_true, beq_iff_eq, List.cons.injEq]
    constructor
    · rintro ⟨⟨⟨h1, h2⟩, h3⟩, h4⟩
      exact ⟨rest, ⟨h1, h2, h3, rfl⟩, (dottedTail_iff rest).mp h4⟩
    · rintro ⟨b, ⟨h1, h2, h3, rfl⟩, h4⟩
      exact ⟨⟨⟨h1, h2⟩, h3⟩, (dottedTail_iff _).mpr h4⟩

theorem dottedAux_iff : ∀ (t : JStr) (p : Nat),
    dottedAux p t = true ↔
      ∃ a b, t = a ++ 117 :: 46 :: 103 :: b ∧
        ((a = [] ∧ isWordChar p = false) ∨
          (∃ a1 c, a = a1 ++ [c] ∧ isWordChar c = false)) ∧
        DottedTailOk b := by
  intro t
  induction t with
  | nil =>
    intro p
    constructor
    · intro h; exact absurd h (by simp [dottedAux])
    · rintro ⟨a, b, heq, _, _⟩
      exact absurd heq (by simp)
  | cons c rest ih =>
    intro p
    constructor
    · intro h
      simp only [dottedAux, Bool.or_eq_true, Bool.and_eq_true,
        Bool.not_eq_eq_eq_not, Bool.not_true] at h
      rcases h with ⟨hp, hcore⟩ | h
      · obtain ⟨b, hb, htail⟩ := (dottedCore_iff _).mp hcore
        exact ⟨[], b, by simpa using hb, Or.inl ⟨rfl, hp⟩, htail⟩
      · obtain ⟨a, b, heq, hbound, htail⟩ := (ih c).mp h
        refine ⟨c :: a, b, by rw [heq]; rfl, ?_, htail⟩
        rcases hbound with ⟨rfl, hc⟩ | ⟨a1, d, ha, hd⟩
        · exact Or.inr ⟨[], c, rfl, hc⟩
        · exact Or.inr ⟨c :: a1, d, by rw [ha]; rfl, hd⟩
    · rintro ⟨a, b, heq, hbound, htail⟩
      simp only [dottedAux, Bool.or_eq_true, Bool.and_eq_true,
        Bool.not_eq_eq_eq_not, Bool.not_true]
      cases a with
      | nil =>
        simp only [List.nil_append] at heq
        rcases hbound with ⟨_, hp⟩ | ⟨a1, d, ha, _⟩
        · exact Or.inl ⟨hp, (dottedCore_iff _).mpr ⟨b, heq, htail⟩⟩
        · exact absurd ha (by simp)
      | cons a0 a1 =>
        simp only [List.cons_append, List.cons.injEq] at heq
        obtain ⟨hca, hrest⟩ := heq
        subst hca
        rcases hbound with ⟨ha, _⟩ | ⟨p1, d, ha, hd⟩
        · exact absurd ha (by simp)
        · cases p1 with
          | nil =>
            simp only [List.nil_append, List.cons.injEq] at ha
            obtain ⟨h0, h1⟩ := ha
            subst h0
            subst h1
            right
            exact (ih c).mpr ⟨[], b, hrest, Or.inl ⟨rfl, hd⟩, htail⟩
          | cons q0 q1 =>
            simp only [List.cons_append, List.cons.injEq] at ha
            obtain ⟨h0, h1⟩ := ha
            right
            exact (ih c).mpr ⟨a1, b, hrest, Or.inr ⟨q1, d, h1, hd⟩, htail⟩

theorem dottedScan_iff (s : JStr) : dottedScan s = true ↔ AmendedDotted s := by
  cases s with
  | nil =>
    constructor
    · intro h; exact absurd h (by simp [dottedScan])
    · rintro ⟨a, b, heq, _, _⟩
      exact absurd heq (by simp)
  | cons c rest =>
    constructor
    · intro h
      simp only [dottedScan, Bool.or_eq_true] at h
      rcases h with h | h
      · obtain ⟨b, hb, htail⟩ := (dottedCore_iff _).mp h
        exact ⟨[], b, by simpa using hb, Or.inl rfl, htail⟩
      · obtain ⟨a, b, heq, hbound, htail⟩ := (dottedAux_iff rest c).mp h
        refine ⟨c :: a, b, by rw [heq]; rfl, ?_, htail⟩
        rcases hbound with ⟨rfl, hc⟩ | ⟨a1, d, ha, hd⟩
        · exact Or.inr ⟨[], c, rfl, hc⟩
        · exact Or.inr ⟨c :: a1, d, by rw [ha]; rfl, hd⟩
    · rintro ⟨a, b, heq, hbound, htail⟩
      simp only [dottedScan, Bool.or_eq_true]
      cases a with
      | nil =>
        simp only [List.nil_append] at heq
        exact Or.inl ((dottedCore_iff _).mpr ⟨b, heq, htail⟩)
      | cons a0 a1 =>
        simp only [List.cons_append, List.cons.injEq] at heq
        obtain ⟨hca, hrest⟩ := heq
        subst hca
        rcases hbound with ha | ⟨p1, d, ha, hd⟩
        · exact absurd ha (by simp)
        · right
          cases p1 with
          | nil =>
            simp only [List.nil_append, List.cons.injEq] at ha
            obtain ⟨h0, h1⟩ := ha
            subst h0
            subst h1
            exact (dottedAux_iff rest c).mpr ⟨[], b, hrest, Or.inl ⟨rfl, hd⟩, htail⟩
          | cons q0 q1 =>
            simp only [List.cons_append, List.cons.injEq] at ha
            obtain ⟨h0, h1⟩ := ha
            exact (dottedAux_iff rest c).mpr
              ⟨a1, b, hrest, Or.inr ⟨q1, d, h1, hd⟩, htail⟩

theorem cityScan_imp_containsSub (city : JStr) :
    ∀ (l : JStr) (prev : Option Nat),
      cityScanAux city prev l = true → containsSub city l = true := by
  intro l
  induction l with
  | nil =>
    intro prev h
    simp only [cityScanAux, Bool.and_eq_true] at h
    simp only [cityHere, Bool.and_eq_true] at h
    simp only [containsSub]
    exact h.2.1
  | cons c rest ih =>
    intro prev h
    simp only [cityScanAux, Bool.or_eq_true, Bool.and_eq_true] at h
    simp only [containsSub, Bool.or_eq_true]
    rcases h with ⟨_, hh⟩ | h
    · simp only [cityHere, Bool.and_eq_true] at hh
      exact Or.inl hh.1
    · exact Or.inr (ih (some c) h)

/-! ## C4: exactly when the abbreviation rules return 50 -/

/-- C4 counterexample: the string `nairobi,ug` contains neither the
country name nor any known city name, and the claim's condition (`ug`
preceded by a comma+space or a space, or dotted `u.g.`) rejects it — the
comma has no following space — yet the scorer returns 50, because the
regexp prefix `,\s*` accepts a comma with no whitespace at all. -/
theorem score_abbrev_claim_cex :
    containsSub (str "uganda") (str "nairobi,ug") = false ∧
    (∀ city ∈ UGANDA_CITIES, containsSub city (str "nairobi,ug") = false) ∧
    computeConfidenceScore (str "nairobi,ug") = 50 ∧
    claimC4Cond (str "nairobi,ug") = false := by
  refine ⟨by decide, by decide, by decide, by decide⟩

/-- C4 amended: for every string containing neither the country name nor
any known city name, the scorer returns 50 exactly when `ug` occurs
preceded by a comma followed by optional whitespace or by a literal
space, and followed by whitespace, by optional whitespace then a comma,
or by the end of the string — or when `u.g` (optionally with a trailing
dot) occurs bounded by string edges or non-word characters.  Occurrences
of `ug` embedded in a longer word still never trigger the rule. -/
theorem score_fifty_iff_abbrev (s : JStr)
    (h1 : containsSub (str "uganda") s = false)
    (h2 : ∀ city ∈ UGANDA_CITIES, containsSub city s = false) :
    computeConfidenceScore s = 50 ↔ (AmendedAbbrev s ∨ AmendedDotted s) := by
  by_cases hnil : s = []
  · subst hnil
    constructor
    · intro h
      exact absurd h (by decide)
    · rintro (⟨a, b, heq, _, _⟩ | ⟨a, b, heq, _, _⟩) <;>
        exact absurd heq (by simp)
  · have hkam : containsSub (str "kampala") s = false :=
      h2 (str "kampala") (by simp [UGANDA_CITIES])
    have hcity :
        (UGANDA_CITIES.any fun city => !(city == str "kampala") && cityScan city s) = false := by
      rw [Bool.eq_false_iff]
      intro hany
      obtain ⟨city, hmem, hc⟩ := List.any_eq_true.mp hany
      simp only [Bool.and_eq_true] at hc
      have hcon := cityScan_imp_containsSub city s none hc.2
      rw [h2 city hmem] at hcon
      exact absurd hcon (by simp)
    unfold computeConfidenceScore
    rw [if_neg hnil, if_neg (by simp [h1]), if_neg (by simp [hkam]),
      if_neg (by simp [hcity])]
    constructor
    · intro h
      by_cases ha : ugAbbrevScan s = true
      · exact Or.inl ((ugScan_iff s).mp ha)
      · rw [if_neg ha] at h
        by_cases hd : dottedScan s = true
        · exact Or.inr ((dottedScan_iff s).mp hd)
        · rw [if_neg hd] at h
          omega
    · rintro (h | h)
      · rw [if_pos ((ugScan_iff s).mpr h)]
      · by_cases ha : ugAbbrevScan s = true
        · rw [if_pos ha]
        · rw [if_neg ha, if_pos ((dottedScan_iff s).mpr h)]

/-- Witness for C4 (amended) at `debugging`, where the embedded `ug` must
not fire: the hypotheses hold and the equivalence is obtained from the
theorem. -/
theorem score_fifty_iff_abbrev_witness :
    (containsSub (str "uganda") (str "debugging") = false ∧
      ∀ city ∈ UGANDA_CITIES, containsSub city (str "debugging") = false) ∧
    (computeConfidenceScore (str "debugging") = 50 ↔
      (AmendedAbbrev (str "debugging") ∨ AmendedDotted (str "debugging"))) :=
  ⟨⟨by decide, by decide⟩, score_fifty_iff_abbrev _ (by decide) (by decide)⟩

/-! ## Character-level lemmas for the normaliser -/

theorem jsToLower_idem (n : Nat) : jsToLower (jsToLower n) = jsToLower n := by
  unfold jsToLower
  by_cases h : (65 ≤ n && n ≤ 90) = true
  · rw [if_pos h]
    simp only [Bool.and_eq_true, decide_eq_true_eq] at h
    rw [if_neg (by simp only [Bool.and_eq_true, decide_eq_true_eq]; omega)]
  · rw [if_neg h, if_neg h]

theorem isJsWs_jsToLower (n : Nat) : isJsWs (jsToLower n) = isJsWs n := by
  unfold jsToLower
  by_cases h : (65 ≤ n && n ≤ 90) = true
  · rw [if_pos h]
    simp only [Bool.and_eq_true, decide_eq_true_eq] at h
    have h1 : isJsWs (n + 32) = false := by
      rw [Bool.eq_false_iff]
      intro hc
      simp only [isJsWs, Bool.or_eq_true, decide_eq_true_eq,
        Bool.and_eq_true] at hc
      omega
    have h2 : isJsWs n = false := by
      rw [Bool.eq_false_iff]
      intro hc
      simp only [isJsWs, Bool.or_eq_true, decide_eq_true_eq,
        Bool.and_eq_true] at hc
      omega
    rw [h1, h2]
  · rw [if_neg h]

theorem isEmojiChar_jsToLower (n : Nat) :
    isEmojiChar (jsToLower n) = isEmojiChar n := by
  unfold jsToLower
  by_cases h : (65 ≤ n && n ≤ 90) = true
  · rw [if_pos h]
    simp only [Bool.and_eq_true, decide_eq_true_eq] at h
    have h1 : isEmojiChar (n + 32) = false := by
      rw [Bool.eq_false_iff]
      intro hc
      simp only [isEmojiChar, Bool.or_eq_true, decide_eq_true_eq,
        Bool.and_eq_true] at hc
      omega
    have h2 : isEmojiChar n = false := by
      rw [Bool.eq_false_iff]
      intro hc
      simp only [isEmojiChar, Bool.or_eq_true, decide_eq_true_eq,
        Bool.and_eq_true] at hc
      omega
    rw [h1, h2]
  · rw [if_neg h]

/-! ## Lemmas about the whitespace-collapsing stage -/

theorem collapseWsAux_mem :
    ∀ (l : JStr) (b : Bool) (c : Nat), c ∈ collapseWsAux b l →
      c = 32 ∨ (c ∈ l ∧ isJsWs c = false) := by
  intro l
  induction l with
  | nil => intro b c hc; simp [collapseWsAux] at hc
  | cons d rest ih =>
    intro b c hc
    by_cases hd : isJsWs d = true
    · cases b with
      | true =>
        simp only [collapseWsAux, hd, if_true] at hc
        cases ih true c hc with
        | inl h => exact Or.inl h
        | inr hmw => exact Or.inr ⟨List.mem_cons_of_mem _ hmw.1, hmw.2⟩
      | false =>
        simp only [collapseWsAux, hd, if_true, Bool.false_eq_true, if_false,
          List.mem_cons] at hc
        cases hc with
        | inl h => exact Or.inl h
        | inr hc =>
          cases ih true c hc with
          | inl h => exact Or.inl h
          | inr hmw => exact Or.inr ⟨List.mem_cons_of_mem _ hmw.1, hmw.2⟩
    · have hdf : isJsWs d = false := Bool.eq_false_iff.mpr hd
      simp only [collapseWsAux, hdf, Bool.false_eq_true, if_false,
        List.mem_cons] at hc
      cases hc with
      | inl h => exact Or.inr ⟨h ▸ List.mem_cons_self _ _, h ▸ hdf⟩
      | inr hc =>
        cases ih false c hc with
        | inl h => exact Or.inl h
        | inr hmw => exact Or.inr ⟨List.mem_cons_of_mem _ hmw.1, hmw.2⟩

theorem headNonWs_collapseWsAux_true :
    ∀ l : JStr, headNonWs (collapseWsAux true l) = true := by
  intro l
  induction l with
  | nil => rfl
  | cons d rest ih =>
    by_cases hd : isJsWs d = true
    · simp only [collapseWsAux, hd, if_true]
      exact ih
    · have hdf : isJsWs d = false := Bool.eq_false_iff.mpr hd
      simp only [collapseWsAux, hdf, Bool.false_eq_true, if_false, headNonWs,
        hdf]
      rfl

theorem noWsRun_cons_of (c : Nat) (t : JStr) (ht : noWsRun t = true)
    (h : isJsWs c = false ∨ headNonWs t = true) : noWsRun (c :: t) = true := by
  cases t with
  | nil => rfl
  | cons d t2 =>
    simp only [noWsRun, Bool.and_eq_true]
    refine ⟨?_, ht⟩
    rcases h with h | h
    · simp [h]
    · simp only [headNonWs, Bool.not_eq_true'] at h
      simp [h]

theorem noWsRun_collapseWsAux :
    ∀ (l : JStr) (b : Bool), noWsRun (collapseWsAux b l) = true := by
  intro l
  induction l with
  | nil => intro b; rfl
  | cons d rest ih =>
    intro b
    by_cases hd : isJsWs d = true
    · cases b with
      | true =>
        simp only [collapseWsAux, hd, if_true]
        exact ih true
      | false =>
        simp only [collapseWsAux, hd, if_true]
        exact noWsRun_cons_of 32 _ (ih true)
          (Or.inr (headNonWs_collapseWsAux_true rest))
    · have hdf : isJsWs d = false := Bool.eq_false_iff.mpr hd
      simp only [collapseWsAux, hdf, Bool.false_eq_true, if_false]
      exact noWsRun_cons_of d _ (ih false) (Or.inl hdf)

theorem noWsRun_tail (c : Nat) (l : JStr) (h : noWsRun (c :: l) = true) :
    noWsRun l = true := by
  cases l with
  | nil => rfl
  | cons d t =>
    simp only [noWsRun, Bool.and_eq_true] at h
    exact h.2

theorem headNonWs_tail_of_ws (d : Nat) (rest : JStr)
    (h : noWsRun (d :: rest) = true) (hd : isJsWs d = true) :
    headNonWs rest = true := by
  cases rest with
  | nil => rfl
  | cons e t =>
    simp only [noWsRun, Bool.and_eq_true] at h
    have := h.1
    simp only [hd, Bool.true_and, Bool.not_eq_true'] at this
    simp [headNonWs, this]

theorem collapseWs_fix :
    ∀ l : JStr, (∀ c ∈ l, isJsWs c = true → c = 32) → noWsRun l = true →
      (collapseWsAux false l = l ∧
        (headNonWs l = true → collapseWsAux true l = l)) := by
  intro l
  induction l with
  | nil => intro _ _; exact ⟨rfl, fun _ => rfl⟩
  | cons d rest ih =>
    intro hws hrun
    have hws2 : ∀ c ∈ rest, isJsWs c = true → c = 32 :=
      fun c hc => hws c (List.mem_cons_of_mem _ hc)
    obtain ⟨ihf, iht⟩ := ih hws2 (noWsRun_tail d rest hrun)
    by_cases hd : isJsWs d = true
    · have hd32 : d = 32 := hws d (List.mem_cons_self _ _) hd
      have hrest : collapseWsAux true rest = rest :=
        iht (headNonWs_tail_of_ws d rest hrun hd)
      subst hd32
      constructor
      · simp only [collapseWsAux, hd, if_true, Bool.false_eq_true, if_false,
          hrest]
      · intro habs
        simp only [headNonWs, Bool.not_eq_true'] at habs
        rw [habs] at hd
        exact absurd hd (by simp)
    · have hdf : isJsWs d = false := Bool.eq_false_iff.mpr hd
      constructor
      · simp only [collapseWsAux, hdf, Bool.false_eq_true, if_false, ihf]
      · intro _
        simp only [collapseWsAux, hdf, Bool.false_eq_true, if_false, ihf]

/-! ## Lemmas about the trim stage -/

theorem dropWhile_head_false (p : Nat → Bool) :
    ∀ (l : JStr) (c : Nat) (rest : JStr),
      l.dropWhile p = c :: rest → p c = false := by
  intro l
  induction l with
  | nil => intro c rest h; simp at h
  | cons d t ih =>
    intro c rest h
    by_cases hd : p d = true
    · rw [List.dropWhile_cons, if_pos hd] at h
      exact ih c rest h
    · have hdf : p d = false := Bool.eq_false_iff.mpr hd
      rw [List.dropWhile_cons, if_neg (by simp [hdf])] at h
      obtain ⟨h1, _⟩ := List.cons.injEq d t c rest ▸ h
      exact h1 ▸ hdf

theorem headNonWs_dropWhile (l : JStr) :
    headNonWs (l.dropWhile isJsWs) = true := by
  cases h : l.dropWhile isJsWs with
  | nil => rfl
  | cons c rest =>
    simp only [headNonWs, Bool.not_eq_true']
    exact dropWhile_head_false isJsWs l c rest h

theorem dropWhile_eq_self_of_headNonWs (t : JStr) (h : headNonWs t = true) :
    t.dropWhile isJsWs = t := by
  cases t with
  | nil => rfl
  | cons c rest =>
    simp only [headNonWs, Bool.not_eq_true'] at h
    rw [List.dropWhile_cons, if_neg (by simp [h])]

theorem mem_jsTrim (l : JStr) (c : Nat) (hc : c ∈ jsTrim l) : c ∈ l := by
  unfold jsTrim at hc
  rw [List.mem_reverse] at hc
  have h1 : c ∈ (l.dropWhile isJsWs).reverse :=
    (List.dropWhile_sublist isJsWs).subset hc
  rw [List.mem_reverse] at h1
  exact (List.dropWhile_sublist isJsWs).subset h1

theorem headNonWs_reverse_jsTrim (l : JStr) :
    headNonWs (jsTrim l).reverse = true := by
  unfold jsTrim
  rw [List.reverse_reverse]
  exact headNonWs_dropWhile _

theorem headNonWs_jsTrim (l : JStr) : headNonWs (jsTrim l) = true := by
  unfold jsTrim
  have hsuf : (l.dropWhile isJsWs).reverse.dropWhile isJsWs <:+
      (l.dropWhile isJsWs).reverse := List.dropWhile_suffix isJsWs
  have hpre : ((l.dropWhile isJsWs).reverse.dropWhile isJsWs).reverse <+:
      l.dropWhile isJsWs := by
    have := @List.reverse_suffix Nat
      (((l.dropWhile isJsWs).reverse.dropWhile isJsWs).reverse)
      (l.dropWhile isJsWs)
    simp only [List.reverse_reverse] at this
    exact this.mp hsuf
  cases hr : ((l.dropWhile isJsWs).reverse.dropWhile isJsWs).reverse with
  | nil => rfl
  | cons c t =>
    rw [hr] at hpre
    obtain ⟨u, hu⟩ := hpre
    have hhead := headNonWs_dropWhile l
    rw [← hu] at hhead
    simp only [List.cons_append, headNonWs] at hhead
    simp only [headNonWs]
    exact hhead

theorem noWsRun_append_right :
    ∀ a b : JStr, noWsRun (a ++ b) = true → noWsRun b = true := by
  intro a
  induction a with
  | nil => intro b h; exact h
  | cons x a2 ih =>
    intro b h
    exact ih b (noWsRun_tail x _ (by simpa using h))

theorem noWsRun_append_left :
    ∀ a b : JStr, noWsRun (a ++ b) = true → noWsRun a = true := by
  intro a
  induction a with
  | nil => intro b _; rfl
  | cons x a2 ih =>
    intro b h
    cases a2 with
    | nil => rfl
    | cons y a3 =>
      simp only [List.cons_append, noWsRun, Bool.and_eq_true] at h
      have h2 : noWsRun (y :: a3) = true := ih b (by simpa using h.2)
      simp only [noWsRun, Bool.and_eq_true]
      exact ⟨h.1, h2⟩

theorem noWsRun_jsTrim (l : JStr) (h : noWsRun l = true) :
    noWsRun (jsTrim l) = true := by
  unfold jsTrim
  have h1 : noWsRun (l.dropWhile isJsWs) = true := by
    obtain ⟨t, ht⟩ := @List.dropWhile_suffix Nat l isJsWs
    exact noWsRun_append_right t _ (ht.symm ▸ h)
  have hpre : ((l.dropWhile isJsWs).reverse.dropWhile isJsWs).reverse <+:
      l.dropWhile isJsWs := by
    have hsuf : (l.dropWhile isJsWs).reverse.dropWhile isJsWs <:+
        (l.dropWhile isJsWs).reverse := List.dropWhile_suffix isJsWs
    have := @List.reverse_suffix Nat
      (((l.dropWhile isJsWs).reverse.dropWhile isJsWs).reverse)
      (l.dropWhile isJsWs)
    simp only [List.reverse_reverse] at this
    exact this.mp hsuf
  obtain ⟨u, hu⟩ := hpre
  exact noWsRun_append_left _ u (hu.symm ▸ h1)

theorem jsTrim_fix (l : JStr) (hh : headNonWs l = true)
    (hl : headNonWs l.reverse = true) : jsTrim l = l := by
  unfold jsTrim
  rw [dropWhile_eq_self_of_headNonWs l hh,
    dropWhile_eq_self_of_headNonWs l.reverse hl, List.reverse_reverse]

/-! ## Lemmas about the lowercasing stage -/

theorem noWsRun_toLowerStr :
    ∀ l : JStr, noWsRun l = true → noWsRun (toLowerStr l) = true := by
  intro l
  induction l with
  | nil => intro _; rfl
  | cons c rest ih =>
    intro h
    cases rest with
    | nil => rfl
    | cons d rest2 =>
      simp only [noWsRun, Bool.and_eq_true] at h
      have h2 := ih h.2
      simp only [toLowerStr, List.map_cons] at h2 ⊢
      simp only [noWsRun, Bool.and_eq_true, isJsWs_jsToLower]
      exact ⟨h.1, h2⟩

theorem toLowerStr_fix :
    ∀ l : JStr, (∀ c ∈ l, jsToLower c = c) → toLowerStr l = l := by
  intro l
  induction l with
  | nil => intro _; rfl
  | cons c rest ih =>
    intro h
    simp only [toLowerStr, List.map_cons]
    rw [h c (List.mem_cons_self _ _),
      show List.map jsToLower rest = toLowerStr rest from rfl,
      ih (fun x hx => h x (List.mem_cons_of_mem _ hx))]

theorem headNonWs_toLowerStr (l : JStr) (h : headNonWs l = true) :
    headNonWs (toLowerStr l) = true := by
  cases l with
  | nil => rfl
  | cons c rest =>
    simp only [headNonWs, toLowerStr, List.map_cons, isJsWs_jsToLower]
    simpa [headNonWs] using h

theorem headNonWs_toLowerStr_reverse (l : JStr)
    (h : headNonWs l.reverse = true) :
    headNonWs (toLowerStr l).reverse = true := by
  unfold toLowerStr
  rw [← List.map_reverse]
  cases hr : l.reverse with
  | nil => rfl
  | cons c rest =>
    rw [hr] at h
    simp only [headNonWs, List.map_cons, isJsWs_jsToLower]
    simpa [headNonWs] using h

/-! ## Lemmas about the alias table -/

theorem applyAlias_cases (l : JStr) :
    applyAlias l = l ∨ applyAlias l = str "kampala, uganda" ∨
      applyAlias l = str "uganda" := by
  cases hf : LOCATION_ALIASES.find? (fun p => p.1 == l) with
  | none =>
    left
    unfold applyAlias
    rw [hf]
  | some p =>
    have hmem : p ∈ LOCATION_ALIASES := List.mem_of_find?_eq_some hf
    have hval : applyAlias l = p.2 := by
      unfold applyAlias
      rw [hf]
    simp only [LOCATION_ALIASES, List.mem_cons, List.not_mem_nil,
      or_false] at hmem
    rcases hmem with h | h | h <;> rw [h] at hval
    · exact Or.inr (Or.inl hval)
    · exact Or.inr (Or.inl hval)
    · exact Or.inr (Or.inr hval)

theorem applyAlias_idem (l : JStr) :
    applyAlias (applyAlias l) = applyAlias l := by
  rcases applyAlias_cases l with h | h | h
  · rw [h]
    exact h
  · rw [h]
    decide
  · rw [h]
    decide

theorem canon_applyAlias (l : JStr) (h : Canon l = true) :
    Canon (applyAlias l) = true := by
  rcases applyAlias_cases l with hc | hc | hc <;> rw [hc]
  · exact h
  · decide
  · decide

/-! ## Canonicality of the cleanup chain -/

theorem stripEmoji_mem (l : JStr) (c : Nat) (hc : c ∈ stripEmoji l) :
    isEmojiChar c = false := by
  unfold stripEmoji at hc
  have := List.of_mem_filter hc
  simpa using this

theorem canon_normCore (l : JStr) : Canon (normCore l) = true := by
  unfold normCore
  have h_mem : ∀ c ∈ jsTrim (collapseWs (stripEmoji (jsTrim l))),
      c = 32 ∨ (isEmojiChar c = false ∧ isJsWs c = false) := by
    intro c hc
    have hc2 := mem_jsTrim _ c hc
    rcases collapseWsAux_mem _ false c hc2 with h | ⟨hm, hw⟩
    · exact Or.inl h
    · exact Or.inr ⟨stripEmoji_mem _ c hm, hw⟩
  have h_run : noWsRun (jsTrim (collapseWs (stripEmoji (jsTrim l)))) = true :=
    noWsRun_jsTrim _ (noWsRun_collapseWsAux _ false)
  have h_head : headNonWs (jsTrim (collapseWs (stripEmoji (jsTrim l)))) = true :=
    headNonWs_jsTrim _
  have h_last :
      headNonWs (jsTrim (collapseWs (stripEmoji (jsTrim l)))).reverse = true :=
    headNonWs_reverse_jsTrim _
  unfold Canon
  rw [Bool.and_eq_true, Bool.and_eq_true, Bool.and_eq_true]
  refine ⟨⟨⟨?_, ?_⟩, ?_⟩, ?_⟩
  · rw [List.all_eq_true]
    intro c hc
    obtain ⟨x, hx, rfl⟩ := List.mem_map.mp hc
    unfold goodChar
    rw [Bool.and_eq_true, Bool.and_eq_true]
    refine ⟨⟨?_, ?_⟩, ?_⟩
    · rw [Bool.not_eq_true', isEmojiChar_jsToLower]
      rcases h_mem x hx with rfl | ⟨he, _⟩
      · decide
      · exact he
    · rw [beq_iff_eq]
      exact jsToLower_idem x
    · rcases h_mem x hx with rfl | ⟨_, hw⟩
      · decide
      · rw [Bool.or_eq_true, Bool.not_eq_true', isJsWs_jsToLower]
        exact Or.inl hw
  · exact noWsRun_toLowerStr _ h_run
  · exact headNonWs_toLowerStr _ h_head
  · exact headNonWs_toLowerStr_reverse _ h_last

theorem canon_fix (l : JStr) (h : Canon l = true) : normCore l = l := by
  unfold Canon at h
  rw [Bool.and_eq_true, Bool.and_eq_true, Bool.and_eq_true] at h
  obtain ⟨⟨⟨hall, hrun⟩, hhead⟩, hlast⟩ := h
  rw [List.all_eq_true] at hall
  have hgood : ∀ c ∈ l,
      isEmojiChar c = false ∧ jsToLower c = c ∧ (isJsWs c = true → c = 32) := by
    intro c hc
    have hg := hall c hc
    simp only [goodChar, Bool.and_eq_true, Bool.or_eq_true, Bool.not_eq_true',
      beq_iff_eq] at hg
    refine ⟨hg.1.1, hg.1.2, fun hw => ?_⟩
    rcases hg.2 with h2 | h2
    · rw [hw] at h2
      exact absurd h2 (by simp)
    · exact h2
  have h1 : jsTrim l = l := jsTrim_fix l hhead hlast
  have h2 : stripEmoji l = l :=
    List.filter_eq_self.mpr (fun c hc => by simp [(hgood c hc).1])
  have h3 : collapseWs l = l :=
    (collapseWs_fix l (fun c hc => (hgood c hc).2.2) hrun).1
  have h4 : toLowerStr l = l := toLowerStr_fix l (fun c hc => (hgood c hc).2.1)
  unfold normCore
  rw [h1, h2]
  show toLowerStr (jsTrim (collapseWs l)) = l
  rw [h3, h1, h4]

theorem norm_some (y : JStr) (hy : y ≠ []) :
    normaliseLocation (some y) = applyAlias (normCore y) := by
  simp [normaliseLocation, hy]

theorem canon_norm (x : Option JStr) : Canon (normaliseLocation x) = true := by
  cases x with
  | none => decide
  | some r =>
    by_cases hr : r = []
    · subst hr
      decide
    · rw [norm_some r hr]
      exact canon_applyAlias _ (canon_normCore r)

theorem applyAlias_norm_fix (x : Option JStr) :
    applyAlias (normaliseLocation x) = normaliseLocation x := by
  cases x with
  | none => decide
  | some r =>
    by_cases hr : r = []
    · subst hr
      decide
    · rw [norm_some r hr]
      exact applyAlias_idem _

/-! ## C5: idempotence of the normaliser -/

/-- C5: `normaliseLocation` is idempotent on every input, `null` and empty
included: normalising an already-normalised string changes nothing — the
cleanup stages fix canonical strings and alias expansion never yields a
string that is itself an alias key. -/
theorem normaliseLocation_idempotent (x : Option JStr) :
    normaliseLocation (some (normaliseLocation x)) = normaliseLocation x := by
  by_cases hy : normaliseLocation x = []
  · rw [hy]
    decide
  · rw [norm_some _ hy, canon_fix _ (canon_norm x)]
    exact applyAlias_norm_fix x

end Gitfast
